import Mathlib

/-!
Verification of the saltpack.js protocol core against its natural-language
specification.

The development shallowly embeds the TypeScript sources:
* `src/armor.ts`   — ASCII armor codec (`armor`, `dearmor`);
* `src/encryption.ts` — `encrypt` / `decrypt` and the nonce builder;
* `src/signing.ts` — `sign` / `verify` (the complete draft, with
  `computeSignature`).

Byte strings are `List Nat`.  The out-of-scope collaborators (NaCl
primitives and the msgpack codec) are modelled as computable functions with
their standard semantics: `secretbox`/`box` are injective pairings that can
be opened exactly under the matching nonce and key, Ed25519 signatures
verify exactly for the matching public key and message, and the wire is
represented by the stream of decoded top-level msgpack values (`MPVal`),
which is faithful because the codec is canonical and self-delimiting.
`nacl.hash` is SHA-512, implemented here in full; BLAKE2b-512 is also
implemented in full in order to compare the specification's stated header
hash with the one the code computes.
-/

namespace Saltpack

/-- Byte strings (and ASCII character-code strings) are lists of naturals. -/
abbrev Bytes := List Nat

/-- ASCII character codes of a string literal. -/
def strBytes (s : String) : Bytes := s.toList.map Char.toNat

/-- Length-prefixed encoding of a byte string; the building block that makes
the crypto-collaborator models injective. -/
def encLen (bs : Bytes) : Bytes := bs.length :: bs

/-! ## NaCl collaborator model

`secretbox` seals a message under a symmetric key and nonce; opening
succeeds exactly when the same nonce and key are supplied.  `box` is
`secretbox` under the Diffie–Hellman shared key of the two parties, which is
modelled as the sorted pair of the two public keys, so that
`dhKey skA (pubOf skB) = dhKey skB (pubOf skA)`. -/

/-- Model of X25519 public-key derivation (injective, never all-zero). -/
def pubOf (sk : Bytes) : Bytes := 7 :: sk

/-- Model of XSalsa20-Poly1305 `nacl.secretbox`. -/
def secretbox (m n k : Bytes) : Bytes := encLen n ++ encLen k ++ m

/-- Model of `nacl.secretbox.open`: succeeds exactly under the sealing nonce
and key. -/
def secretboxOpen (c n k : Bytes) : Option Bytes :=
  let tag := encLen n ++ encLen k
  if c.take tag.length = tag then some (c.drop tag.length) else none

/-- Model of the X25519 shared key: the lexicographically sorted pair of the
two parties' public keys. -/
def dhKey (sk pk : Bytes) : Bytes :=
  if pubOf sk ≤ pk then encLen (pubOf sk) ++ encLen pk
  else encLen pk ++ encLen (pubOf sk)

/-- Model of `nacl.box`. -/
def box (m n pk sk : Bytes) : Bytes := secretbox m n (dhKey sk pk)

/-- Model of `nacl.box.open`. -/
def boxOpen (c n pk sk : Bytes) : Option Bytes := secretboxOpen c n (dhKey sk pk)

/-- Model of Ed25519 public-key derivation. -/
def sPubOf (sk : Bytes) : Bytes := 9 :: sk

/-- Model of `nacl.sign.detached`. -/
def signDetached (msg sk : Bytes) : Bytes := encLen (sPubOf sk) ++ msg

/-- Model of `nacl.sign.detached.verify`: a signature is valid exactly for
the signer's public key and the signed message. -/
def signDetachedVerify (msg sig pk : Bytes) : Bool :=
  sig = encLen pk ++ msg

/-! ## Nonce builder (`makeNonce` in `src/encryption.ts`) -/

/-- Big-endian 8-byte encoding of a 64-bit counter
(`DataView.setBigUint64(16, index, false)`). -/
def be64 (n : Nat) : Bytes :=
  let v := n % 2 ^ 64
  [v / 2 ^ 56 % 256, v / 2 ^ 48 % 256, v / 2 ^ 40 % 256, v / 2 ^ 32 % 256,
   v / 2 ^ 24 % 256, v / 2 ^ 16 % 256, v / 2 ^ 8 % 256, v % 256]

/-- Writes `src` into `dst` starting at byte `off`
(`Uint8Array.prototype.set`). -/
def listSet (dst src : Bytes) (off : Nat) : Bytes :=
  dst.take off ++ src ++ dst.drop (off + src.length)

/-- The `makeNonce` helper from `src/encryption.ts`: a 24-byte buffer holding the
prefix at offset 0 and the big-endian counter at offset 16. -/
def makeNonce (pfx : Bytes) (index : Nat) : Bytes :=
  listSet (listSet (List.replicate 24 0) pfx 0) (be64 index) 16

/-- The `NONCE_PREFIX_RECIPS` bytes (16 ASCII bytes). -/
def NONCE_RECIPS : Bytes := strBytes "saltpack_recipsb"

/-- The `NONCE_PREFIX_SENDER` bytes as the source defines them (16 ASCII bytes,
note: not the 24-byte `saltpack_sender_key_sbox` of the saltpack spec). -/
def NONCE_SENDER : Bytes := strBytes "saltpack_sender_"

/-- The `NONCE_PREFIX_PAYLOAD` bytes (16 ASCII bytes). -/
def NONCE_PAYLOAD : Bytes := strBytes "saltpack_ploadsb"

/-! ## Chunking

`encrypt` and `sign` walk the input in strides of `CHUNK_SIZE`
(`for (let i = 0; i < len; i += CHUNK_SIZE) subarray(i, i + CHUNK_SIZE)`).
`chunksOf` reproduces the resulting chunk list; it is defined with
explicit fuel so that it evaluates by kernel reduction. -/

/-- The chunk stride `CHUNK_SIZE = 1024 * 1024` (1 MiB). -/
def CHUNK_SIZE : Nat := 1024 * 1024

/-- Fuelled worker for `chunksOf`. -/
def chunksOfF (fuel n : Nat) (l : Bytes) : List Bytes :=
  match fuel with
  | 0 => []
  | f + 1 => if l = [] then [] else l.take n :: chunksOfF f n (l.drop n)

/-- The successive `CHUNK_SIZE`-byte slices of the input. -/
def chunksOf (n : Nat) (l : Bytes) : List Bytes := chunksOfF l.length n l

/-! ## The wire as a stream of decoded values

The object-packing codec is an out-of-scope collaborator ("stream-decode a
byte sequence into a lazy sequence of values").  Because its encoding is
canonical and self-delimiting, a byte stream is faithfully represented by
the list of top-level values that `decodeMulti` yields from it; dropping a
trailing packet corresponds to dropping the last value. -/

/-- Decoded msgpack values: integers, strings, byte strings, arrays, nil. -/
inductive MPVal where
  | nat (n : Nat)
  | str (s : String)
  | bin (b : Bytes)
  | arr (l : List MPVal)
  | nil

mutual

/-- Canonical encoding of a value tree to bytes (model of
`@msgpack/msgpack`'s `encode`; tagged and length-prefixed, hence injective
and deterministic, which is all the core relies on). -/
def encodeVal : MPVal → Bytes
  | .nat n => [0, n]
  | .str s => 1 :: encLen (strBytes s)
  | .bin b => 2 :: encLen b
  | .arr l => 3 :: l.length :: encodeList l
  | .nil => [4]

/-- Concatenated encodings of the elements of an array value. -/
def encodeList : List MPVal → Bytes
  | [] => []
  | v :: vs => encodeVal v ++ encodeList vs

end

/-! ## Keys, results and errors -/

/-- The `KeyPair` record from `src/types.ts`. -/
structure KeyPair where
  publicKey : Bytes
  secretKey : Bytes
deriving DecidableEq

/-- A key pair as produced by `nacl.box.keyPair()`. -/
def KeyPair.valid (kp : KeyPair) : Prop := kp.publicKey = pubOf kp.secretKey

/-- A key pair as produced by `nacl.sign.keyPair()`. -/
def KeyPair.signValid (kp : KeyPair) : Prop := kp.publicKey = sPubOf kp.secretKey

/-- The `DecryptionResult` record from `src/types.ts`: `senderPublicKey` is `none`
when the sender was anonymous (`undefined` in the source). -/
structure DecryptionResult where
  plaintext : Bytes
  senderPublicKey : Option Bytes
deriving DecidableEq

/-- The `VerificationResult` record from `src/types.ts`. -/
structure VerificationResult where
  message : Bytes
  senderPublicKey : Bytes
  verified : Bool
deriving DecidableEq

/-- The tagged failures the core throws (`throw new Error(...)` sites). -/
inductive Err where
  /-- Thrown as "At least one recipient public key is required". -/
  | invalidArgument
  /-- Thrown as "Empty message". -/
  | emptyMessage
  /-- Thrown as "Invalid saltpack header" or "Invalid header". -/
  | malformedHeader
  /-- Thrown as "Unsupported version". -/
  | unsupportedVersion
  /-- Thrown as "Unsupported mode". -/
  | unsupportedMode
  /-- Thrown as "Could not decrypt payload key". -/
  | notARecipient
  /-- Thrown as "Failed to decrypt sender public key". -/
  | senderOpenFailure
  /-- Thrown as "Failed to decrypt payload chunk j" or "Signature
  verification failed for packet j". -/
  | authFailure (j : Nat)
  /-- Thrown as "Sender public key in header does not match expected key". -/
  | wrongSigner
  /-- Thrown as "Invalid payload packet". -/
  | invalidPacket
  /-- a JS `TypeError` raised by the NaCl collaborator on a non-byte-string
  argument -/
  | typeError
  /-- Thrown as "Invalid armored data: too few lines". -/
  | tooFewLines
  /-- Thrown as "Invalid armored data: missing header or footer". -/
  | badArmorFrame
  /-- Thrown as "Failed to decode armored data" (invalid base64). -/
  | badBase64
deriving DecidableEq

instance {ε α : Type} [DecidableEq ε] [DecidableEq α] :
    DecidableEq (Except ε α) := fun a b =>
  match a, b with
  | .error e1, .error e2 => decidable_of_iff (e1 = e2) (by simp)
  | .error _, .ok _ => isFalse (by simp)
  | .ok _, .error _ => isFalse (by simp)
  | .ok a1, .ok a2 => decidable_of_iff (a1 = a2) (by simp)

/-! ## `encrypt` (`src/encryption.ts`)

The two message-scoped random values (`payloadKey = nacl.randomBytes(32)`
and the ephemeral key pair) are passed in explicitly; the ephemeral public
key is `pubOf ephSk` exactly as `nacl.box.keyPair()` derives it. -/

/-- The `recipientPublicKeys.forEach` loop: entry `i` pairs the recipient's
public key with `nacl.box(payloadKey, recipsb-nonce(i), recipientPk,
ephemeralSk)`. -/
def buildPairs (ks : List Bytes) (payloadKey ephSk : Bytes) (i : Nat) :
    List (Bytes × Bytes) :=
  match ks with
  | [] => []
  | pk :: rest =>
    (pk, box payloadKey (makeNonce NONCE_RECIPS i) pk ephSk) ::
      buildPairs rest payloadKey ephSk (i + 1)

/-- The recipient entries as header values: `[recipientPk, payloadKeyBox]`. -/
def pairVals (pairs : List (Bytes × Bytes)) : List MPVal :=
  pairs.map (fun pr => .arr [.bin pr.1, .bin pr.2])

/-- The 6-element encryption header value. -/
def encHeader (ephPk senderBox : Bytes) (pairs : List (Bytes × Bytes)) : MPVal :=
  .arr [.str "saltpack", .arr [.nat 2, .nat 0], .nat 0, .bin ephPk,
    .bin senderBox, .arr (pairVals pairs)]

/-- The bytes the sender-identity secretbox seals: the sender's public key,
or 32 zero bytes for an anonymous sender. -/
def senderBytesOf : Option KeyPair → Bytes
  | some kp => kp.publicKey
  | none => List.replicate 32 0

/-- The chunk loop of `encrypt` followed by the unconditional final empty
packet: data packet `j` is `[secretbox(chunk_j, ploadsb-nonce(j), key)]`,
and after the chunks one packet holding `secretbox([] ...)` is appended. -/
def payloadPackets (cs : List Bytes) (key : Bytes) (j : Nat) : List MPVal :=
  match cs with
  | [] => [.arr [.bin (secretbox [] (makeNonce NONCE_PAYLOAD j) key)]]
  | c :: rest =>
    .arr [.bin (secretbox c (makeNonce NONCE_PAYLOAD j) key)] ::
      payloadPackets rest key (j + 1)

/-- Function `encrypt` from `src/encryption.ts` (binary path; the armor option is
the separate `armor` codec below).  Output is the stream of top-level
values it writes. -/
def encrypt (plaintext : Bytes) (senderKeyPair : Option KeyPair)
    (recipientPublicKeys : List Bytes) (payloadKey ephSk : Bytes) :
    Except Err (List MPVal) :=
  if recipientPublicKeys = [] then .error .invalidArgument
  else
    let pairs := buildPairs recipientPublicKeys payloadKey ephSk 0
    let senderSecretbox :=
      secretbox (senderBytesOf senderKeyPair) (makeNonce NONCE_SENDER 0)
        payloadKey
    .ok (encHeader (pubOf ephSk) senderSecretbox pairs ::
      payloadPackets (chunksOf CHUNK_SIZE plaintext) payloadKey 0)

/-! ## `decrypt` (`src/encryption.ts`) -/

/-- The recipient search loop: on a public-key match, try
`nacl.box.open`; on success stop, otherwise keep scanning with the running
index.  A malformed recipient entry makes the JS destructuring/`length`
access throw, modelled as `typeError`. -/
def findPayloadKey (pairs : List MPVal) (ephPk : Bytes) (kp : KeyPair)
    (index : Nat) : Except Err (Option Bytes) :=
  match pairs with
  | [] => .ok none
  | .arr [.bin recipientPk, .bin payloadKeyBox] :: rest =>
    if recipientPk = kp.publicKey then
      match boxOpen payloadKeyBox (makeNonce NONCE_RECIPS index) ephPk
          kp.secretKey with
      | some decrypted => .ok (some decrypted)
      | none => findPayloadKey rest ephPk kp (index + 1)
    else findPayloadKey rest ephPk kp (index + 1)
  | _ :: _ => .error .typeError

/-- The chunk loop of `decrypt`.  A top-level value that is not a
1-element array is skipped (`continue`); an empty decrypted chunk stops
the loop; when the stream ends, the accumulated chunks are returned as
they are (the source has no end-of-stream check). -/
def readChunks (vals : List MPVal) (key : Bytes) (j : Nat)
    (acc : List Bytes) : Except Err Bytes :=
  match vals with
  | [] => .ok acc.flatten
  | .arr [.bin ciphertext] :: rest =>
    match secretboxOpen ciphertext (makeNonce NONCE_PAYLOAD j) key with
    | none => .error (.authFailure j)
    | some chunk =>
      if chunk = [] then .ok acc.flatten
      else readChunks rest key (j + 1) (acc ++ [chunk])
  | .arr [_] :: _ => .error .typeError
  | _ :: rest => readChunks rest key j acc

/-- The header checks of `decrypt`, in source order: shape, format name,
major version, mode.  Returns the ephemeral public key, the sender
secretbox and the recipient entries. -/
def parseEncHeader (header : MPVal) :
    Except Err (Bytes × Bytes × List MPVal) :=
  match header with
  | .arr [.str fmt, .arr [.nat major, .nat _minor],
      .nat mode, .bin ephemeralPk, .bin senderSecretbox, .arr recipientPairs] =>
    if fmt ≠ "saltpack" then .error .malformedHeader
    else if major ≠ 2 then .error .unsupportedVersion
    else if mode ≠ 0 then .error .unsupportedMode
    else .ok (ephemeralPk, senderSecretbox, recipientPairs)
  | _ => .error .malformedHeader

/-- Function `decrypt` from `src/encryption.ts` (binary path), over the decoded
value stream. -/
def decrypt (stream : List MPVal) (recipientKeyPair : KeyPair) :
    Except Err DecryptionResult :=
  match stream with
  | [] => .error .emptyMessage
  | header :: rest =>
    match parseEncHeader header with
    | .error e => .error e
    | .ok (ephemeralPk, senderSecretbox, recipientPairs) =>
      match findPayloadKey recipientPairs ephemeralPk recipientKeyPair 0 with
      | .error e => .error e
      | .ok none => .error .notARecipient
      | .ok (some payloadKey) =>
        match secretboxOpen senderSecretbox (makeNonce NONCE_SENDER 0)
            payloadKey with
        | none => .error .senderOpenFailure
        | some senderPkDecrypted =>
          let isAnon := senderPkDecrypted.all (· == 0)
          let senderPublicKey :=
            if isAnon then none else some senderPkDecrypted
          match readChunks rest payloadKey 0 [] with
          | .error e => .error e
          | .ok plaintext => .ok ⟨plaintext, senderPublicKey⟩

/-! ## SHA-512 (`nacl.hash`)

`tweetnacl`'s `nacl.hash` is SHA-512 (FIPS 180-4), implemented here in
full so that the header hash the code computes can be compared with the
hash function the specification names. -/

/-- Truncation to 64 bits. -/
def w64 (x : Nat) : Nat := x % 2 ^ 64

/-- Rotation of a 64-bit value to the right. -/
def rotr64 (x n : Nat) : Nat := w64 ((x >>> n) ||| (x <<< (64 - n)))

/-- SHA-512 round constants (fractional parts of the cube roots of the
first eighty primes). -/
def shaK : List Nat := [
  4794697086780616226, 8158064640168781261, 13096744586834688815, 16840607885511220156,
  4131703408338449720, 6480981068601479193, 10538285296894168987, 12329834152419229976,
  15566598209576043074, 1334009975649890238, 2608012711638119052, 6128411473006802146,
  8268148722764581231, 9286055187155687089, 11230858885718282805, 13951009754708518548,
  16472876342353939154, 17275323862435702243, 1135362057144423861, 2597628984639134821,
  3308224258029322869, 5365058923640841347, 6679025012923562964, 8573033837759648693,
  10970295158949994411, 12119686244451234320, 12683024718118986047, 13788192230050041572,
  14330467153632333762, 15395433587784984357, 489312712824947311, 1452737877330783856,
  2861767655752347644, 3322285676063803686, 5560940570517711597, 5996557281743188959,
  7280758554555802590, 8532644243296465576, 9350256976987008742, 10552545826968843579,
  11727347734174303076, 12113106623233404929, 14000437183269869457, 14369950271660146224,
  15101387698204529176, 15463397548674623760, 17586052441742319658, 1182934255886127544,
  1847814050463011016, 2177327727835720531, 2830643537854262169, 3796741975233480872,
  4115178125766777443, 5681478168544905931, 6601373596472566643, 7507060721942968483,
  8399075790359081724, 8693463985226723168, 9568029438360202098, 10144078919501101548,
  10430055236837252648, 11840083180663258601, 13761210420658862357, 14299343276471374635,
  14566680578165727644, 15097957966210449927, 16922976911328602910, 17689382322260857208,
  500013540394364858, 748580250866718886, 1242879168328830382, 1977374033974150939,
  2944078676154940804, 3659926193048069267, 4368137639120453308, 4836135668995329356,
  5532061633213252278, 6448918945643986474, 6902733635092675308, 7801388544844847127]

/-- SHA-512 initial hash value (fractional parts of the square roots of
the first eight primes); also the BLAKE2b IV. -/
def shaIV : List Nat := [
  7640891576956012808,
  13503953896175478587,
  4354685564936845355,
  11912009170470909681,
  5840696475078001361,
  11170449401992604703,
  2270897969802886507,
  6620516959819538809]

/-- Big-endian 64-bit words from bytes. -/
def bytesToW64 : Bytes → List Nat
  | b0 :: b1 :: b2 :: b3 :: b4 :: b5 :: b6 :: b7 :: rest =>
    (((((((b0 * 256 + b1) * 256 + b2) * 256 + b3) * 256 + b4) * 256 + b5) *
      256 + b6) * 256 + b7) :: bytesToW64 rest
  | _ => []

/-- Little-endian 64-bit words from bytes (BLAKE2b). -/
def bytesToW64LE : Bytes → List Nat
  | b0 :: b1 :: b2 :: b3 :: b4 :: b5 :: b6 :: b7 :: rest =>
    (((((((b7 * 256 + b6) * 256 + b5) * 256 + b4) * 256 + b3) * 256 + b2) *
      256 + b1) * 256 + b0) :: bytesToW64LE rest
  | _ => []

/-- Little-endian bytes of a 64-bit word. -/
def le64 (x : Nat) : Bytes :=
  [x % 256, x / 2 ^ 8 % 256, x / 2 ^ 16 % 256, x / 2 ^ 24 % 256,
   x / 2 ^ 32 % 256, x / 2 ^ 40 % 256, x / 2 ^ 48 % 256, x / 2 ^ 56 % 256]

/-- SHA-512 message padding: `0x80`, zeros, and the 128-bit bit length. -/
def shaPad (msg : Bytes) : Bytes :=
  msg ++ 128 :: List.replicate ((128 - (msg.length + 17) % 128) % 128) 0 ++
    be64 (msg.length * 8 / 2 ^ 64) ++ be64 (msg.length * 8)

def shaS0 (x : Nat) : Nat := rotr64 x 1 ^^^ rotr64 x 8 ^^^ (x >>> 7)

def shaS1 (x : Nat) : Nat := rotr64 x 19 ^^^ rotr64 x 61 ^^^ (x >>> 6)

def shaB0 (x : Nat) : Nat := rotr64 x 28 ^^^ rotr64 x 34 ^^^ rotr64 x 39

def shaB1 (x : Nat) : Nat := rotr64 x 14 ^^^ rotr64 x 18 ^^^ rotr64 x 41

/-- Message-schedule extension: append `steps` further words. -/
def shaExtend (ws : List Nat) (steps : Nat) : List Nat :=
  match steps with
  | 0 => ws
  | s + 1 =>
    let n := ws.length
    let w := w64 (shaS1 (ws.getD (n - 2) 0) + ws.getD (n - 7) 0 +
      shaS0 (ws.getD (n - 15) 0) + ws.getD (n - 16) 0)
    shaExtend (ws ++ [w]) s

/-- One SHA-512 round on the eight-word working state. -/
def shaRound (st : List Nat) (kt wt : Nat) : List Nat :=
  match st with
  | [a, b, c, d, e, f, g, h] =>
    let t1 := w64 (h + shaB1 e + ((e &&& f) ^^^ ((2 ^ 64 - 1 - e) &&& g)) + kt + wt)
    let t2 := w64 (shaB0 a + ((a &&& b) ^^^ (a &&& c) ^^^ (b &&& c)))
    [w64 (t1 + t2), a, b, c, w64 (d + t1), e, f, g]
  | other => other

/-- Fold the eighty rounds over the schedule. -/
def shaRounds (st : List Nat) : List Nat → List Nat → List Nat
  | k :: ks, w :: ws => shaRounds (shaRound st k w) ks ws
  | _, _ => st

/-- Compress one 128-byte block into the chaining state. -/
def shaCompress (h : List Nat) (block : Bytes) : List Nat :=
  let ws := shaExtend (bytesToW64 block) 64
  let st := shaRounds h shaK ws
  List.zipWith (fun x y => w64 (x + y)) h st

/-- SHA-512 of a byte string. -/
def sha512 (msg : Bytes) : Bytes :=
  (((chunksOf 128 (shaPad msg)).foldl shaCompress shaIV).map be64).flatten

/-- The header hash both signing-path state machines use:
`nacl.hash(headerBytes).slice(0, 32)`. -/
def headerHash (headerBytes : Bytes) : Bytes := (sha512 headerBytes).take 32

/-! ## BLAKE2b-512 (RFC 7693)

Modelled from the spec: the specification states the header hash is the
"first 32 bytes of BLAKE2b-512 over the canonical header bytes"; BLAKE2b
is not part of the repository, so it is implemented here from its
standard (RFC 7693, unkeyed, 64-byte digest) purely to compare against
the hash the code actually computes. -/

/-- BLAKE2b message schedule permutations. -/
def blakeSigma : List (List Nat) := [
  [0, 1, 2, 3, 4, 5, 6, 7, 8, 9, 10, 11, 12, 13, 14, 15],
  [14, 10, 4, 8, 9, 15, 13, 6, 1, 12, 0, 2, 11, 7, 5, 3],
  [11, 8, 12, 0, 5, 2, 15, 13, 10, 14, 3, 6, 7, 1, 9, 4],
  [7, 9, 3, 1, 13, 12, 11, 14, 2, 6, 5, 10, 4, 0, 15, 8],
  [9, 0, 5, 7, 2, 4, 10, 15, 14, 1, 11, 12, 6, 8, 3, 13],
  [2, 12, 6, 10, 0, 11, 8, 3, 4, 13, 7, 5, 15, 14, 1, 9],
  [12, 5, 1, 15, 14, 13, 4, 10, 0, 7, 6, 3, 9, 2, 8, 11],
  [13, 11, 7, 14, 12, 1, 3, 9, 5, 0, 15, 4, 8, 6, 2, 10],
  [6, 15, 14, 9, 11, 3, 0, 8, 12, 2, 13, 7, 1, 4, 10, 5],
  [10, 2, 8, 4, 7, 6, 1, 5, 15, 11, 9, 14, 3, 12, 13, 0]]

/-- The BLAKE2b G mixing function on the sixteen-word vector. -/
def blakeG (v : List Nat) (ia ib ic id x y : Nat) : List Nat :=
  let a := v.getD ia 0
  let b := v.getD ib 0
  let c := v.getD ic 0
  let d := v.getD id 0
  let a1 := w64 (a + b + x)
  let d1 := rotr64 (d ^^^ a1) 32
  let c1 := w64 (c + d1)
  let b1 := rotr64 (b ^^^ c1) 24
  let a2 := w64 (a1 + b1 + y)
  let d2 := rotr64 (d1 ^^^ a2) 16
  let c2 := w64 (c1 + d2)
  let b2 := rotr64 (b1 ^^^ c2) 63
  ((((v.set ia a2).set ib b2).set ic c2).set id d2)

/-- One BLAKE2b round. -/
def blakeRound (m v : List Nat) (r : Nat) : List Nat :=
  let s := blakeSigma.getD (r % 10) []
  let mi := fun i => m.getD (s.getD i 0) 0
  let v1 := blakeG v 0 4 8 12 (mi 0) (mi 1)
  let v2 := blakeG v1 1 5 9 13 (mi 2) (mi 3)
  let v3 := blakeG v2 2 6 10 14 (mi 4) (mi 5)
  let v4 := blakeG v3 3 7 11 15 (mi 6) (mi 7)
  let v5 := blakeG v4 0 5 10 15 (mi 8) (mi 9)
  let v6 := blakeG v5 1 6 11 12 (mi 10) (mi 11)
  let v7 := blakeG v6 2 7 8 13 (mi 12) (mi 13)
  blakeG v7 3 4 9 14 (mi 14) (mi 15)

/-- BLAKE2b compression of one 128-byte block. -/
def blakeCompress (h : List Nat) (block : Bytes) (t : Nat) (final : Bool) :
    List Nat :=
  let m := bytesToW64LE block
  let v := h ++ shaIV
  let v1 := v.set 12 (v.getD 12 0 ^^^ w64 t)
  let v2 := v1.set 13 (v1.getD 13 0 ^^^ w64 (t / 2 ^ 64))
  let v3 := if final then v2.set 14 (v2.getD 14 0 ^^^ (2 ^ 64 - 1)) else v2
  let vf := (List.range 12).foldl (fun acc r => blakeRound m acc r) v3
  (List.range 8).map (fun i => h.getD i 0 ^^^ vf.getD i 0 ^^^ vf.getD (i + 8) 0)

/-- Walk the 128-byte blocks, flagging the last one final. -/
def blakeGo (h : List Nat) (blocks : List Bytes) (processed : Nat) : List Nat :=
  match blocks with
  | [] => h
  | [last] =>
    blakeCompress h (last ++ List.replicate (128 - last.length) 0)
      (processed + last.length) true
  | blk :: rest => blakeGo (blakeCompress h blk (processed + 128) false) rest
      (processed + 128)

/-- BLAKE2b-512 of a byte string (unkeyed). -/
def blake2b512 (msg : Bytes) : Bytes :=
  let h0 := shaIV.set 0 (shaIV.getD 0 0 ^^^ 16842816)
  let blocks := if msg = [] then [[]] else chunksOf 128 msg
  ((blakeGo h0 blocks 0).map le64).flatten

/-- Modelled from the spec: the header hash the specification prescribes,
"first 32 bytes of BLAKE2b-512 over the canonical header bytes". -/
def specHeaderHash (headerBytes : Bytes) : Bytes := (blake2b512 headerBytes).take 32

/-! ## `sign` / `verify` (`src/signing.ts`) -/

/-- Function `computeSignature`: detached Ed25519 signature over
`headerHash || nonce || be64(packetIndex) || finalFlag || chunk`. -/
def computeSignature (secretKey hHash nonce : Bytes) (packetIndex : Nat)
    (isFinal : Bool) (chunk : Bytes) : Bytes :=
  signDetached (hHash ++ nonce ++ be64 packetIndex ++
    [if isFinal then 1 else 0] ++ chunk) secretKey

/-- The 5-element signing header value
`["saltpack", [2, 0], 1, signerPk, headerNonce]`. -/
def sigHeader (signerPk headerNonce : Bytes) : MPVal :=
  .arr [.str "saltpack", .arr [.nat 2, .nat 0], .nat 1, .bin signerPk,
    .bin headerNonce]

/-- The chunk loop of `sign` followed by the unconditional final empty
packet: data packets are `[signature, chunk]` with final flag `0`, the
terminator is `[signature, empty]` with final flag `1`. -/
def signPackets (cs : List Bytes) (sk hHash nonce : Bytes) (j : Nat) :
    List MPVal :=
  match cs with
  | [] => [.arr [.bin (computeSignature sk hHash nonce j true []), .bin []]]
  | c :: rest =>
    .arr [.bin (computeSignature sk hHash nonce j false c), .bin c] ::
      signPackets rest sk hHash nonce (j + 1)

/-- Function `sign` from `src/signing.ts`; the random 32-byte header nonce is
passed explicitly.  Output is the stream of top-level values it writes. -/
def sign (message : Bytes) (signingKeyPair : KeyPair) (headerNonce : Bytes) :
    List MPVal :=
  let headerVal := sigHeader signingKeyPair.publicKey headerNonce
  let hHash := headerHash (encodeVal headerVal)
  headerVal :: signPackets (chunksOf CHUNK_SIZE message)
    signingKeyPair.secretKey hHash headerNonce 0

/-- The chunk loop of `verify`: each packet must be a 2-element array;
the final flag is inferred from chunk emptiness; every signature is
checked against the in-header signer key; non-final chunks accumulate.
When the stream ends the accumulated chunks are returned as they are
(the source has no end-of-stream check either). -/
def verifyChunks (vals : List MPVal) (hHash nonce senderPk : Bytes)
    (j : Nat) (acc : List Bytes) : Except Err Bytes :=
  match vals with
  | [] => .ok acc.flatten
  | .arr [.bin signature, .bin chunk] :: rest =>
    let isFinal := chunk = ([] : Bytes)
    let signInput := hHash ++ nonce ++ be64 j ++
      [if isFinal then 1 else 0] ++ chunk
    if signDetachedVerify signInput signature senderPk then
      verifyChunks rest hHash nonce senderPk (j + 1)
        (if isFinal then acc else acc ++ [chunk])
    else .error (.authFailure j)
  | .arr [_, _] :: _ => .error .typeError
  | _ :: _ => .error .invalidPacket

/-- The header checks of `verify`, in source order: shape, format name,
major version, mode.  Returns the in-header signer public key and the
header nonce. -/
def parseSigHeader (header : MPVal) : Except Err (Bytes × Bytes) :=
  match header with
  | .arr [.str fmt, .arr [.nat major, .nat _minor], .nat mode, .bin senderPk,
      .bin headerNonce] =>
    if fmt ≠ "saltpack" then .error .malformedHeader
    else if major ≠ 2 then .error .unsupportedVersion
    else if mode ≠ 1 then .error .unsupportedMode
    else .ok (senderPk, headerNonce)
  | _ => .error .malformedHeader

/-- Function `verify` from `src/signing.ts`, over the decoded value stream.  The
signer check happens right after the header checks, before any chunk is
touched; the header hash is computed over the re-encoded header value,
exactly as the source does (`encode(header)`). -/
def verify (stream : List MPVal) (signerPublicKey : Bytes) :
    Except Err VerificationResult :=
  match stream with
  | [] => .error .emptyMessage
  | header :: rest =>
    match parseSigHeader header with
    | .error e => .error e
    | .ok (senderPk, headerNonce) =>
      if senderPk ≠ signerPublicKey then .error .wrongSigner
      else
        let hHash := headerHash (encodeVal header)
        match verifyChunks rest hHash headerNonce senderPk 0 [] with
        | .error e => .error e
        | .ok message => .ok ⟨message, senderPk, true⟩

/-! ## ASCII armor (`src/armor.ts`)

Armored text is a list of character codes.  `btoa`/`atob` are the
platform's standard base64 codec, modelled in full. -/

/-- The message type (`"ENCRYPTED" | "SIGNED"`). -/
inductive MessageType where
  | encrypted
  | signed
deriving DecidableEq

/-- The armor header line for a message type. -/
def armorHeaderLine : MessageType → Bytes
  | .encrypted => strBytes "BEGIN SALTPACK ENCRYPTED MESSAGE."
  | .signed => strBytes "BEGIN SALTPACK SIGNED MESSAGE."

/-- The armor footer line for a message type. -/
def armorFooterLine : MessageType → Bytes
  | .encrypted => strBytes "END SALTPACK ENCRYPTED MESSAGE."
  | .signed => strBytes "END SALTPACK SIGNED MESSAGE."

/-- The standard base64 alphabet, by sextet value. -/
def b64Char (v : Nat) : Nat :=
  if v < 26 then 65 + v
  else if v < 52 then 97 + (v - 26)
  else if v < 62 then 48 + (v - 52)
  else if v = 62 then 43
  else 47

/-- Inverse of the base64 alphabet. -/
def b64Val (c : Nat) : Option Nat :=
  if 65 ≤ c ∧ c ≤ 90 then some (c - 65)
  else if 97 ≤ c ∧ c ≤ 122 then some (c - 97 + 26)
  else if 48 ≤ c ∧ c ≤ 57 then some (c - 48 + 52)
  else if c = 43 then some 62
  else if c = 47 then some 63
  else none

/-- Standard base64 encoding (`btoa`), three bytes to four characters,
with `=` padding. -/
def b64Enc : Bytes → Bytes
  | [] => []
  | [a] => [b64Char (a / 4), b64Char (a % 4 * 16), 61, 61]
  | [a, b] => [b64Char (a / 4), b64Char (a % 4 * 16 + b / 16),
      b64Char (b % 16 * 4), 61]
  | a :: b :: c :: rest =>
    b64Char (a / 4) :: b64Char (a % 4 * 16 + b / 16) ::
      b64Char (b % 16 * 4 + c / 64) :: b64Char (c % 64) :: b64Enc rest

/-- Standard base64 decoding (`atob`); fails on malformed input. -/
def b64Dec : Bytes → Option Bytes
  | [] => some []
  | c0 :: c1 :: c2 :: c3 :: rest =>
    match b64Val c0, b64Val c1 with
    | some v0, some v1 =>
      if c2 = 61 ∧ c3 = 61 ∧ rest = [] then some [v0 * 4 + v1 / 16]
      else
        match b64Val c2 with
        | some v2 =>
          if c3 = 61 ∧ rest = [] then
            some [v0 * 4 + v1 / 16, v1 % 16 * 16 + v2 / 4]
          else
            match b64Val c3 with
            | some v3 =>
              (b64Dec rest).map (fun tl =>
                (v0 * 4 + v1 / 16) :: (v1 % 16 * 16 + v2 / 4) ::
                  (v2 % 4 * 64 + v3) :: tl)
            | none => none
        | none => none
    | _, _ => none
  | _ => none

/-- Function `armor` from `src/armor.ts`: header line, the base64 body split into
43-character lines, footer line, joined by LF. -/
def armor (data : Bytes) (messageType : MessageType) : Bytes :=
  List.intercalate [10]
    ([armorHeaderLine messageType] ++ chunksOf 43 (b64Enc data) ++
      [armorFooterLine messageType])

/-- JS whitespace for `String.prototype.trim` (ASCII part). -/
def isWsChar (c : Nat) : Bool :=
  c = 9 || c = 10 || c = 11 || c = 12 || c = 13 || c = 32

/-- Model of `String.prototype.trim`. -/
def trimBytes (l : Bytes) : Bytes :=
  ((l.dropWhile isWsChar).reverse.dropWhile isWsChar).reverse

/-- Function `dearmor` from `src/armor.ts`: trim, split on LF, check the frame
lines, base64-decode the concatenated middle lines. -/
def dearmor (armoredData : Bytes) : Except Err Bytes :=
  let lines := (trimBytes armoredData).splitOn 10
  if lines.length < 3 then .error .tooFewLines
  else
    let header := lines.headD []
    let footer := lines.getLastD []
    if ¬((strBytes "BEGIN SALTPACK").isPrefixOf header ∧
        (strBytes "END SALTPACK").isPrefixOf footer) then
      .error .badArmorFrame
    else
      match b64Dec ((lines.drop 1).dropLast).flatten with
      | some bytes => .ok bytes
      | none => .error .badBase64

/-- Whether a decoded top-level value is a 1-element array (the only
payload shape `decrypt` consumes). -/
def isOneElemArr : MPVal → Bool
  | .arr [_] => true
  | _ => false

/-- The recipient-entry values of the header of an `encrypt` result
(empty for anything that is not a well-formed encrypted stream). -/
def headerRecipientVals : Except Err (List MPVal) → List MPVal
  | .ok (.arr [_, _, _, _, _, .arr pairs] :: _) => pairs
  | _ => []

/-! # Theorems

## The collaborator models and the nonce builder -/

theorem encLen_inj {a b : Bytes} (h : encLen a = encLen b) : a = b :=
  (by simpa [encLen] using h : _ ∧ a = b).2


/-- Appending after a length prefix is injective: `encLen a ++ x` determines `a` and `x`. -/
theorem encLen_append_inj {a b x y : Bytes}
    (h : encLen a ++ x = encLen b ++ y) : a = b ∧ x = y := by
  have hlen : a.length = b.length := by
    simpa [encLen] using congrArg (fun l => l.headD 0) h
  have h2 : a ++ x = b ++ y :=
    (by simpa [encLen] using h : _ ∧ a ++ x = b ++ y).2
  exact List.append_inj h2 hlen


theorem secretboxOpen_secretbox (m n k : Bytes) :
    secretboxOpen (secretbox m n k) n k = some m := by
  show (if (encLen n ++ encLen k ++ m).take (encLen n ++ encLen k).length =
      encLen n ++ encLen k then
      some ((encLen n ++ encLen k ++ m).drop (encLen n ++ encLen k).length)
    else none) = some m
  rw [List.take_left' rfl, List.drop_left' rfl, if_pos rfl]


theorem dhKey_comm (skA skB : Bytes) :
    dhKey skA (pubOf skB) = dhKey skB (pubOf skA) := by
  unfold dhKey
  rcases lt_trichotomy (pubOf skA) (pubOf skB) with h | h | h
  · rw [if_pos h.le, if_neg (not_le.mpr h)]
  · rw [h]
  · rw [if_neg (not_le.mpr h), if_pos h.le]


theorem boxOpen_box (m n : Bytes) (skA skB : Bytes) :
    boxOpen (box m n (pubOf skB) skA) n (pubOf skA) skB = some m := by
  unfold box boxOpen
  rw [dhKey_comm skB skA]
  exact secretboxOpen_secretbox m n (dhKey skA (pubOf skB))


theorem signDetachedVerify_signDetached (msg sk : Bytes) :
    signDetachedVerify msg (signDetached msg sk) (sPubOf sk) = true := by
  simp [signDetached, signDetachedVerify]


theorem makeNonce_eq_append (pfx : Bytes) (index : Nat) (h : pfx.length = 16) :
    makeNonce pfx index = pfx ++ be64 index := by
  have hbe : (be64 index).length = 8 := by simp [be64]
  simp [makeNonce, listSet, h, hbe, List.take_append_eq_append_take,
    List.drop_append_eq_append_drop, List.take_of_length_le, List.drop_eq_nil_of_le]


theorem chunksOfF_nil (fuel n : Nat) : chunksOfF fuel n [] = [] := by
  cases fuel <;> simp [chunksOfF]


theorem chunksOfF_congr {n : Nat} (hn : 0 < n) :
    ∀ (f1 : Nat) (l : Bytes) (f2 : Nat), l.length ≤ f1 → l.length ≤ f2 →
      chunksOfF f1 n l = chunksOfF f2 n l := by
  intro f1
  induction f1 with
  | zero =>
    intro l f2 h1 _
    rw [List.length_eq_zero.mp (Nat.le_zero.mp h1), chunksOfF_nil, chunksOfF_nil]
  | succ f ih =>
    intro l f2 h1 h2
    rcases l with _ | ⟨a, t⟩
    · rw [chunksOfF_nil, chunksOfF_nil]
    · rcases f2 with _ | f2
      · simp at h2
      · simp only [chunksOfF, if_neg (List.cons_ne_nil a t)]
        have hn1 : 1 ≤ n := hn
        have hd : ((a :: t).drop n).length ≤ f := by
          simp only [List.length_drop, List.length_cons] at h1 ⊢
          omega
        have hd2 : ((a :: t).drop n).length ≤ f2 := by
          simp only [List.length_drop, List.length_cons] at h2 ⊢
          omega
        rw [ih _ _ hd hd2]


/-- The defining unfolding of `chunksOf`. -/
theorem chunksOf_eq {n : Nat} (hn : 0 < n) (l : Bytes) :
    chunksOf n l = if l = [] then [] else l.take n :: chunksOf n (l.drop n) := by
  rcases l with _ | ⟨a, t⟩
  · simp [chunksOf, chunksOfF_nil]
  · simp only [chunksOf, List.length_cons, chunksOfF, if_neg (List.cons_ne_nil a t)]
    congr 1
    refine chunksOfF_congr hn _ _ _ ?_ le_rfl
    simp only [List.length_drop, List.length_cons]
    omega


theorem chunksOf_flatten {n : Nat} (hn : 0 < n) (l : Bytes) :
    (chunksOf n l).flatten = l := by
  rw [chunksOf_eq hn l]
  by_cases h : l = []
  · simp [h]
  · rw [if_neg h, List.flatten_cons, chunksOf_flatten hn (l.drop n),
      List.take_append_drop]
termination_by l.length
decreasing_by
  simp only [List.length_drop]
  have : 0 < l.length := List.length_pos.mpr h
  omega


theorem chunksOf_mem_ne_nil {n : Nat} (hn : 0 < n) (l : Bytes) :
    ∀ c ∈ chunksOf n l, c ≠ [] := by
  rw [chunksOf_eq hn l]
  by_cases h : l = []
  · simp [h]
  · rw [if_neg h]
    intro c hc
    rcases List.mem_cons.mp hc with rfl | hmem
    · have hn0 : n ≠ 0 := by omega
      simp [List.take_eq_nil_iff, hn0, h]
    · exact chunksOf_mem_ne_nil hn (l.drop n) c hmem
termination_by l.length
decreasing_by
  simp only [List.length_drop]
  have : 0 < l.length := List.length_pos.mpr h
  omega


theorem chunksOf_mem_length_le {n : Nat} (hn : 0 < n) (l : Bytes) :
    ∀ c ∈ chunksOf n l, c.length ≤ n := by
  rw [chunksOf_eq hn l]
  by_cases h : l = []
  · simp [h]
  · rw [if_neg h]
    intro c hc
    rcases List.mem_cons.mp hc with rfl | hmem
    · simp
    · exact chunksOf_mem_length_le hn (l.drop n) c hmem
termination_by l.length
decreasing_by
  simp only [List.length_drop]
  have : 0 < l.length := List.length_pos.mpr h
  omega


theorem chunksOf_getElem {n : Nat} (hn : 0 < n) (l : Bytes) (i : Nat)
    (hi : i < (chunksOf n l).length) :
    (chunksOf n l)[i]? = some ((l.drop (n * i)).take n) := by
  rw [chunksOf_eq hn l] at hi ⊢
  by_cases h : l = []
  · rw [if_pos h] at hi; simp at hi
  · rw [if_neg h] at hi ⊢
    rcases i with _ | i
    · simp
    · simp only [List.getElem?_cons_succ]
      rw [chunksOf_getElem hn (l.drop n) i (by simpa using hi)]
      rw [List.drop_drop]
      congr 2
      rw [Nat.mul_succ, Nat.add_comm]
termination_by l.length
decreasing_by
  simp only [List.length_drop]
  have : 0 < l.length := List.length_pos.mpr h
  omega

/-! ## The recipient search and the chunk loops -/

theorem findPayloadKey_buildPairs (R : List Bytes) (k e : Bytes)
    (kp : KeyPair) (hv : kp.valid) (hmem : kp.publicKey ∈ R) :
    ∀ i, findPayloadKey (pairVals (buildPairs R k e i)) (pubOf e) kp i =
      .ok (some k) := by
  induction R with
  | nil => simp at hmem
  | cons pk rest ih =>
    intro i
    simp only [buildPairs, pairVals, List.map_cons, findPayloadKey]
    by_cases hpk : pk = kp.publicKey
    · rw [if_pos hpk]
      have hopen : boxOpen (box k (makeNonce NONCE_RECIPS i) pk e)
          (makeNonce NONCE_RECIPS i) (pubOf e) kp.secretKey = some k := by
        rw [hpk, hv]
        exact boxOpen_box k (makeNonce NONCE_RECIPS i) e kp.secretKey
      rw [hopen]
    · rw [if_neg hpk]
      have hmem2 : kp.publicKey ∈ rest := by
        rcases List.mem_cons.mp hmem with h | h
        · exact absurd h.symm hpk
        · exact h
      exact ih hmem2 (i + 1)

theorem payloadPackets_ne_nil (cs : List Bytes) (key : Bytes) (j : Nat) :
    payloadPackets cs key j ≠ [] := by
  cases cs <;> simp [payloadPackets]

theorem readChunks_payloadPackets (key : Bytes) :
    ∀ cs : List Bytes, (∀ c ∈ cs, c ≠ []) → ∀ (j : Nat) (acc : List Bytes),
      readChunks (payloadPackets cs key j) key j acc =
        .ok (acc.flatten ++ cs.flatten) := by
  intro cs
  induction cs with
  | nil =>
    intro _ j acc
    simp only [payloadPackets, readChunks, secretboxOpen_secretbox]
    simp
  | cons c rest ih =>
    intro hcs j acc
    simp only [payloadPackets, readChunks, secretboxOpen_secretbox]
    rw [if_neg (hcs c (List.mem_cons_self c rest))]
    rw [ih (fun x hx => hcs x (List.mem_cons_of_mem c hx)) (j + 1) (acc ++ [c])]
    simp

/-- Dropping the final (terminator) packet still lets the chunk loop
return the accumulated plaintext, because the loop treats end-of-stream as
success. -/
theorem readChunks_payloadPackets_dropLast (key : Bytes) :
    ∀ cs : List Bytes, (∀ c ∈ cs, c ≠ []) → ∀ (j : Nat) (acc : List Bytes),
      readChunks (payloadPackets cs key j).dropLast key j acc =
        .ok (acc.flatten ++ cs.flatten) := by
  intro cs
  induction cs with
  | nil =>
    intro _ j acc
    simp [payloadPackets, readChunks]
  | cons c rest ih =>
    intro hcs j acc
    have hne : payloadPackets rest key (j + 1) ≠ [] :=
      payloadPackets_ne_nil rest key (j + 1)
    simp only [payloadPackets]
    rw [List.dropLast_cons_of_ne_nil hne]
    simp only [readChunks, secretboxOpen_secretbox]
    rw [if_neg (hcs c (List.mem_cons_self c rest))]
    rw [ih (fun x hx => hcs x (List.mem_cons_of_mem c hx)) (j + 1) (acc ++ [c])]
    simp

theorem chunk_size_pos : 0 < CHUNK_SIZE := by decide

/-! ## Claim C1 -/

/-- Claim C1: decrypting the output of `encrypt(P, S, R)` with any
recipient key pair whose public key is listed in `R` yields exactly the
plaintext `P`; the recovered sender is `S`'s public key for a named
sender and absent for an anonymous one. -/
theorem decrypt_encrypt_roundtrip (P : Bytes) (S : Option KeyPair)
    (R : List Bytes) (payloadKey ephSk : Bytes) (ri : KeyPair)
    (hri : ri.valid) (hmem : ri.publicKey ∈ R)
    (hS : ∀ kp, S = some kp → kp.valid) :
    (encrypt P S R payloadKey ephSk).bind (fun s => decrypt s ri) =
      .ok ⟨P, S.map KeyPair.publicKey⟩ := by
  have hR : R ≠ [] := by
    rintro rfl
    simp at hmem
  unfold encrypt
  rw [if_neg hR]
  show decrypt (encHeader (pubOf ephSk)
      (secretbox (senderBytesOf S) (makeNonce NONCE_SENDER 0) payloadKey)
      (buildPairs R payloadKey ephSk 0) ::
      payloadPackets (chunksOf CHUNK_SIZE P) payloadKey 0) ri = _
  unfold encHeader
  simp only [decrypt, parseEncHeader]
  rw [if_neg (by simp), if_neg (by simp), if_neg (by simp)]
  simp only [findPayloadKey_buildPairs R payloadKey ephSk ri hri hmem,
    secretboxOpen_secretbox,
    readChunks_payloadPackets payloadKey (chunksOf CHUNK_SIZE P)
      (chunksOf_mem_ne_nil chunk_size_pos P)]
  rcases S with _ | kp
  · simp [senderBytesOf, chunksOf_flatten chunk_size_pos]
  · have hkp : kp.publicKey = pubOf kp.secretKey := hS kp rfl
    simp [senderBytesOf, hkp, pubOf, chunksOf_flatten chunk_size_pos]

/-- Witness for C1 at a concrete instance. -/
theorem decrypt_encrypt_roundtrip_witness :
    (KeyPair.mk (pubOf [4]) [4]).valid ∧
    (KeyPair.mk (pubOf [4]) [4]).publicKey ∈ [[3], pubOf [4]] ∧
    (∀ kp, some (KeyPair.mk (pubOf [5]) [5]) = some kp → kp.valid) ∧
    (encrypt [8, 9] (some (KeyPair.mk (pubOf [5]) [5])) [[3], pubOf [4]]
        [1] [2]).bind
      (fun s => decrypt s (KeyPair.mk (pubOf [4]) [4])) =
      .ok ⟨[8, 9], some (pubOf [5])⟩ :=
  ⟨rfl, by simp, fun kp h => by cases h; rfl,
    decrypt_encrypt_roundtrip [8, 9] (some (KeyPair.mk (pubOf [5]) [5]))
      [[3], pubOf [4]] [1] [2] (KeyPair.mk (pubOf [4]) [4]) rfl (by simp)
      (fun kp h => by cases h; rfl)⟩

/-! ## Claim C6 -/

theorem payloadPackets_length (key : Bytes) :
    ∀ (cs : List Bytes) (j : Nat),
      (payloadPackets cs key j).length = cs.length + 1 := by
  intro cs
  induction cs with
  | nil => intro j; simp [payloadPackets]
  | cons c rest ih => intro j; simp [payloadPackets, ih (j + 1)]

theorem payloadPackets_getElem (key : Bytes) :
    ∀ (cs : List Bytes) (j i : Nat) (c : Bytes), cs[i]? = some c →
      (payloadPackets cs key j)[i]? =
        some (.arr [.bin (secretbox c (makeNonce NONCE_PAYLOAD (j + i)) key)]) := by
  intro cs
  induction cs with
  | nil => intro j i c hc; simp at hc
  | cons c0 rest ih =>
    intro j i c hc
    rcases i with _ | i
    · simp only [List.getElem?_cons_zero, Option.some_inj] at hc
      subst hc
      simp [payloadPackets]
    · simp only [List.getElem?_cons_succ] at hc
      have h2 := ih (j + 1) i c hc
      have harith : j + 1 + i = j + (i + 1) := by omega
      rw [harith] at h2
      simp only [payloadPackets, List.getElem?_cons_succ]
      exact h2

theorem getLast?_cons_of_ne_nil {α : Type} (a : α) {l : List α}
    (h : l ≠ []) : (a :: l).getLast? = l.getLast? := by
  rcases l with _ | ⟨b, t⟩
  · exact absurd rfl h
  · rfl

theorem payloadPackets_getLast (key : Bytes) :
    ∀ (cs : List Bytes) (j : Nat),
      (payloadPackets cs key j).getLast? =
        some (.arr [.bin (secretbox []
          (makeNonce NONCE_PAYLOAD (j + cs.length)) key)]) := by
  intro cs
  induction cs with
  | nil => intro j; simp [payloadPackets]
  | cons c rest ih =>
    intro j
    simp only [payloadPackets]
    rw [getLast?_cons_of_ne_nil _ (payloadPackets_ne_nil rest key (j + 1))]
    rw [ih (j + 1)]
    have harith : j + 1 + rest.length = j + (c :: rest).length := by
      simp only [List.length_cons]
      omega
    rw [harith]

/-- Claim C6: `encrypt` splits the plaintext into successive chunks of at
most 1 MiB, seals chunk `i` with the payload key under the
`saltpack_ploadsb || be64(i)` nonce as a 1-element packet, and always
appends exactly one terminator packet sealing the empty chunk; for the
empty plaintext the payload is just the terminator at index 0. -/
theorem encrypt_chunking (P : Bytes) (S : Option KeyPair) (R : List Bytes)
    (k e : Bytes) (hR : R ≠ []) :
    (∀ i, makeNonce NONCE_PAYLOAD i = strBytes "saltpack_ploadsb" ++ be64 i) ∧
    ∃ hdr packets, encrypt P S R k e = .ok (hdr :: packets) ∧
      packets.length = (chunksOf CHUNK_SIZE P).length + 1 ∧
      (chunksOf CHUNK_SIZE P).flatten = P ∧
      (∀ i, i < (chunksOf CHUNK_SIZE P).length →
        packets[i]? = some (.arr [.bin (secretbox
          ((P.drop (CHUNK_SIZE * i)).take CHUNK_SIZE)
          (makeNonce NONCE_PAYLOAD i) k)]) ∧
        ((P.drop (CHUNK_SIZE * i)).take CHUNK_SIZE).length ≤ CHUNK_SIZE ∧
        (P.drop (CHUNK_SIZE * i)).take CHUNK_SIZE ≠ []) ∧
      packets.getLast? = some (.arr [.bin (secretbox []
        (makeNonce NONCE_PAYLOAD (chunksOf CHUNK_SIZE P).length) k)]) ∧
      (P = [] →
        packets = [.arr [.bin (secretbox [] (makeNonce NONCE_PAYLOAD 0) k)]]) := by
  refine ⟨fun i => makeNonce_eq_append NONCE_PAYLOAD i (by decide),
    encHeader (pubOf e)
    (secretbox (senderBytesOf S) (makeNonce NONCE_SENDER 0) k)
    (buildPairs R k e 0),
    payloadPackets (chunksOf CHUNK_SIZE P) k 0, ?_, ?_, ?_, ?_, ?_, ?_⟩
  · unfold encrypt
    rw [if_neg hR]
  · exact payloadPackets_length k _ 0
  · exact chunksOf_flatten chunk_size_pos P
  · intro i hi
    have hget := chunksOf_getElem chunk_size_pos P i hi
    refine ⟨?_, ?_, ?_⟩
    · have := payloadPackets_getElem k (chunksOf CHUNK_SIZE P) 0 i _ hget
      simpa using this
    · simp
    · have hmem : (P.drop (CHUNK_SIZE * i)).take CHUNK_SIZE ∈
          chunksOf CHUNK_SIZE P := by
        exact List.getElem?_mem hget
      exact chunksOf_mem_ne_nil chunk_size_pos P _ hmem
  · have := payloadPackets_getLast k (chunksOf CHUNK_SIZE P) 0
    simpa using this
  · intro hP
    subst hP
    rfl

/-- Witness for C6 at a concrete instance. -/
theorem encrypt_chunking_witness :
    ([[3]] : List Bytes) ≠ [] ∧
    (∀ i, makeNonce NONCE_PAYLOAD i = strBytes "saltpack_ploadsb" ++ be64 i) ∧
    ∃ hdr packets,
      encrypt [8, 9] none [[3]] [1] [2] = .ok (hdr :: packets) ∧
      packets.length = (chunksOf CHUNK_SIZE [8, 9]).length + 1 ∧
      (chunksOf CHUNK_SIZE [8, 9]).flatten = [8, 9] ∧
      (∀ i, i < (chunksOf CHUNK_SIZE [8, 9]).length →
        packets[i]? = some (.arr [.bin (secretbox
          ((([8, 9] : Bytes).drop (CHUNK_SIZE * i)).take CHUNK_SIZE)
          (makeNonce NONCE_PAYLOAD i) [1])]) ∧
        ((([8, 9] : Bytes).drop (CHUNK_SIZE * i)).take CHUNK_SIZE).length ≤
          CHUNK_SIZE ∧
        (([8, 9] : Bytes).drop (CHUNK_SIZE * i)).take CHUNK_SIZE ≠ []) ∧
      packets.getLast? = some (.arr [.bin (secretbox []
        (makeNonce NONCE_PAYLOAD (chunksOf CHUNK_SIZE [8, 9]).length) [1])]) ∧
      (([8, 9] : Bytes) = [] →
        packets = [.arr [.bin (secretbox [] (makeNonce NONCE_PAYLOAD 0) [1])]]) :=
  ⟨by simp, encrypt_chunking [8, 9] none [[3]] [1] [2] (by simp)⟩

/-! ## Claim C10 -/

theorem buildPairs_length (k e : Bytes) :
    ∀ (R : List Bytes) (j : Nat), (buildPairs R k e j).length = R.length := by
  intro R
  induction R with
  | nil => intro j; rfl
  | cons pk rest ih => intro j; simp [buildPairs, ih (j + 1)]

theorem buildPairs_getElem (k e : Bytes) :
    ∀ (R : List Bytes) (j i : Nat) (pk : Bytes), R[i]? = some pk →
      (buildPairs R k e j)[i]? =
        some (pk, box k (makeNonce NONCE_RECIPS (j + i)) pk e) := by
  intro R
  induction R with
  | nil => intro j i pk h; simp at h
  | cons pk0 rest ih =>
    intro j i pk h
    rcases i with _ | i
    · simp only [List.getElem?_cons_zero, Option.some_inj] at h
      subst h
      simp [buildPairs]
    · simp only [List.getElem?_cons_succ] at h
      have h2 := ih (j + 1) i pk h
      have harith : j + 1 + i = j + (i + 1) := by omega
      rw [harith] at h2
      simp only [buildPairs, List.getElem?_cons_succ]
      exact h2

theorem headerRecipientVals_encrypt (P : Bytes) (S : Option KeyPair)
    (R : List Bytes) (k e : Bytes) (hR : R ≠ []) :
    headerRecipientVals (encrypt P S R k e) =
      pairVals (buildPairs R k e 0) := by
  unfold encrypt
  rw [if_neg hR]
  rfl

/-- Claim C10: every recipient entry of an encryption header carries the
recipient's public key explicitly in its first slot (as a byte string,
never nil), in input order. -/
theorem encrypt_recipients_explicit (P : Bytes) (S : Option KeyPair)
    (R : List Bytes) (k e : Bytes) (i : Nat) (hi : i < R.length) :
    (headerRecipientVals (encrypt P S R k e)).length = R.length ∧
    ∃ bx, (headerRecipientVals (encrypt P S R k e))[i]? =
      some (.arr [.bin (R.get ⟨i, hi⟩), .bin bx]) := by
  have hR : R ≠ [] := by
    rintro rfl
    simp at hi
  rw [headerRecipientVals_encrypt P S R k e hR]
  constructor
  · simp [pairVals, buildPairs_length]
  · refine ⟨box k (makeNonce NONCE_RECIPS i) (R.get ⟨i, hi⟩) e, ?_⟩
    have hRi : R[i]? = some (R.get ⟨i, hi⟩) := by
      simp [List.getElem?_eq_getElem hi]
    have := buildPairs_getElem k e R 0 i _ hRi
    simp [pairVals, List.getElem?_map, this]

/-- Witness for C10 at a concrete instance. -/
theorem encrypt_recipients_explicit_witness :
    1 < ([[3], [4], [5]] : List Bytes).length ∧
    ((headerRecipientVals (encrypt [9] none [[3], [4], [5]] [1] [2])).length =
      ([[3], [4], [5]] : List Bytes).length ∧
    ∃ bx, (headerRecipientVals (encrypt [9] none [[3], [4], [5]] [1] [2]))[1]? =
      some (.arr [.bin (([[3], [4], [5]] : List Bytes).get ⟨1, by simp⟩),
        .bin bx])) :=
  ⟨by simp, encrypt_recipients_explicit [9] none [[3], [4], [5]] [1] [2] 1
    (by simp)⟩

/-! ## Claim C3 -/

/-- Claim C3 (against the code): the sender-identity secretbox nonce the
code builds and uses is `"saltpack_sender_"` (16 ASCII bytes) followed by
the eight-byte big-endian counter 0 — not the 24 ASCII bytes of
`"saltpack_sender_key_sbox"` that the saltpack format (and the
specification) prescribe. -/
theorem sender_nonce_mismatch (P : Bytes) (S : Option KeyPair)
    (R : List Bytes) (k e : Bytes) (hR : R ≠ []) :
    (∃ rest, encrypt P S R k e = .ok (encHeader (pubOf e)
      (secretbox (senderBytesOf S)
        (strBytes "saltpack_sender_" ++ List.replicate 8 0) k)
      (buildPairs R k e 0) :: rest)) ∧
    makeNonce NONCE_SENDER 0 =
      strBytes "saltpack_sender_" ++ List.replicate 8 0 ∧
    makeNonce NONCE_SENDER 0 ≠ strBytes "saltpack_sender_key_sbox" ∧
    (strBytes "saltpack_sender_key_sbox").length = 24 := by
  have hnonce : makeNonce NONCE_SENDER 0 =
      strBytes "saltpack_sender_" ++ List.replicate 8 0 := by decide
  refine ⟨⟨payloadPackets (chunksOf CHUNK_SIZE P) k 0, ?_⟩, hnonce,
    by decide, by decide⟩
  unfold encrypt
  rw [if_neg hR, hnonce]

/-- Witness for C3 at a concrete instance. -/
theorem sender_nonce_mismatch_witness :
    ([[3]] : List Bytes) ≠ [] ∧
    ((∃ rest : List MPVal,
      encrypt [9] none [[3]] [1] [2] = Except.ok (encHeader (pubOf [2])
      (secretbox (senderBytesOf none)
        (strBytes "saltpack_sender_" ++ List.replicate 8 0) [1])
      (buildPairs [[3]] [1] [2] 0) :: rest)) ∧
    makeNonce NONCE_SENDER 0 =
      strBytes "saltpack_sender_" ++ List.replicate 8 0 ∧
    makeNonce NONCE_SENDER 0 ≠ strBytes "saltpack_sender_key_sbox" ∧
    (strBytes "saltpack_sender_key_sbox").length = 24) :=
  ⟨by simp, sender_nonce_mismatch [9] none [[3]] [1] [2] (by simp)⟩

/-! ## Claim C9 -/

/-- Claim C9 counterexample: a stream that contains a 2-element array
between the header and the terminator decrypts successfully — the value
is skipped, `decrypt` does not fail. -/
theorem decrypt_skips_counterexample :
    (match encrypt [8, 9] none [pubOf [4]] [1] [2] with
      | Except.ok s =>
        decrypt (s.take 2 ++ [MPVal.arr [.bin [1], .bin [2]]] ++ s.drop 2)
          (KeyPair.mk (pubOf [4]) [4])
      | Except.error e => Except.error e) =
      Except.ok (DecryptionResult.mk [8, 9] none) := by decide

/-- The chunk loop of `decrypt` ignores any top-level value that is not a
1-element array, at any position and in any state. -/
theorem readChunks_skip {v : MPVal} (hv : isOneElemArr v = false) :
    ∀ (pre suf : List MPVal) (key : Bytes) (j : Nat) (acc : List Bytes),
      readChunks (pre ++ v :: suf) key j acc =
        readChunks (pre ++ suf) key j acc := by
  intro pre
  induction pre with
  | nil =>
    intro suf key j acc
    rcases v with n | s | b | l | _
    · simp [readChunks]
    · simp [readChunks]
    · simp [readChunks]
    · rcases l with _ | ⟨x, xs⟩
      · simp [readChunks]
      · rcases xs with _ | ⟨y, ys⟩
        · exact absurd hv (by simp [isOneElemArr])
        · simp [readChunks]
    · simp [readChunks]
  | cons p pre ih =>
    intro suf key j acc
    rcases p with n | s | b | l | _
    · simp only [List.cons_append, readChunks]
      exact ih suf key j acc
    · simp only [List.cons_append, readChunks]
      exact ih suf key j acc
    · simp only [List.cons_append, readChunks]
      exact ih suf key j acc
    · rcases l with _ | ⟨x, xs⟩
      · simp only [List.cons_append, readChunks]
        exact ih suf key j acc
      · rcases xs with _ | ⟨y, ys⟩
        · rcases x with n | s | c | l2 | _
          · simp only [List.cons_append, readChunks]
          · simp only [List.cons_append, readChunks]
          · rcases hsb : secretboxOpen c (makeNonce NONCE_PAYLOAD j) key
              with _ | chunk
            · simp only [List.cons_append, readChunks, hsb]
            · simp only [List.cons_append, readChunks, hsb]
              by_cases hch : chunk = []
              · rw [if_pos hch, if_pos hch]
              · rw [if_neg hch, if_neg hch]
                exact ih suf key (j + 1) (acc ++ [chunk])
          · simp only [List.cons_append, readChunks]
          · simp only [List.cons_append, readChunks]
        · simp only [List.cons_append, readChunks]
          exact ih suf key j acc
    · simp only [List.cons_append, readChunks]
      exact ih suf key j acc

/-- Claim C9 amended: during decryption, a top-level value after the
header that is not a 1-element array is skipped — removing or inserting
such a value anywhere before the terminator leaves the result of
`decrypt` unchanged, and in particular `decrypt` does not fail on it. -/
theorem decrypt_skips_nonpackets (hdr : MPVal) (pre suf : List MPVal)
    (v : MPVal) (hv : isOneElemArr v = false) (kp : KeyPair) :
    decrypt (hdr :: (pre ++ v :: suf)) kp =
      decrypt (hdr :: (pre ++ suf)) kp := by
  rcases hph : parseEncHeader hdr with e | ⟨ephPk, sbox, pairs⟩
  · simp only [decrypt, hph]
  · simp only [decrypt, hph]
    rcases hfk : findPayloadKey pairs ephPk kp 0 with e | k0
    · simp only [hfk]
    · rcases k0 with _ | pk
      · simp only [hfk]
      · simp only [hfk]
        rcases hso : secretboxOpen sbox (makeNonce NONCE_SENDER 0) pk
            with _ | spk
        · simp only [hso]
        · simp only [hso, readChunks_skip hv]

/-- Witness for the amended C9 at a concrete instance. -/
theorem decrypt_skips_nonpackets_witness :
    isOneElemArr (.arr [.bin [1], .bin [2]]) = false ∧
    decrypt (.nat 0 :: ([.arr [.bin [3]]] ++ .arr [.bin [1], .bin [2]] ::
        [.arr [.bin [4]]])) (KeyPair.mk [1] [2]) =
      decrypt (.nat 0 :: ([.arr [.bin [3]]] ++ [.arr [.bin [4]]]))
        (KeyPair.mk [1] [2]) :=
  ⟨rfl, decrypt_skips_nonpackets (.nat 0) [.arr [.bin [3]]] [.arr [.bin [4]]]
    (.arr [.bin [1], .bin [2]]) rfl (KeyPair.mk [1] [2])⟩

/-! ## The signing chunk loops -/

theorem signPackets_ne_nil (cs : List Bytes) (sk hH hn : Bytes) (j : Nat) :
    signPackets cs sk hH hn j ≠ [] := by
  cases cs <;> simp [signPackets]

theorem verifyChunks_signPackets (sk hH hn : Bytes) :
    ∀ cs : List Bytes, (∀ c ∈ cs, c ≠ []) → ∀ (j : Nat) (acc : List Bytes),
      verifyChunks (signPackets cs sk hH hn j) hH hn (sPubOf sk) j acc =
        .ok (acc.flatten ++ cs.flatten) := by
  intro cs
  induction cs with
  | nil =>
    intro _ j acc
    have hflag : (if ([] : Bytes) = [] then (1 : Nat) else 0) = 1 := if_pos rfl
    have hflag2 : (if true = true then (1 : Nat) else 0) = 1 := rfl
    simp only [signPackets, verifyChunks, computeSignature, hflag, hflag2]
    rw [if_pos (signDetachedVerify_signDetached _ sk)]
    simp [verifyChunks]
  | cons c rest ih =>
    intro hcs j acc
    have hne : c ≠ [] := hcs c (List.mem_cons_self c rest)
    have hflag : (if c = [] then (1 : Nat) else 0) = 0 := if_neg hne
    have hflag2 : (if false = true then (1 : Nat) else 0) = 0 := rfl
    simp only [signPackets, verifyChunks, computeSignature, hflag, hflag2]
    rw [if_pos (signDetachedVerify_signDetached _ sk), if_neg hne]
    rw [ih (fun x hx => hcs x (List.mem_cons_of_mem c hx)) (j + 1) (acc ++ [c])]
    simp

/-- Same as `verifyChunks_signPackets` but with the final (terminator)
packet removed: the loop still returns the accumulated message, because it
treats end-of-stream as success. -/
theorem verifyChunks_signPackets_dropLast (sk hH hn : Bytes) :
    ∀ cs : List Bytes, (∀ c ∈ cs, c ≠ []) → ∀ (j : Nat) (acc : List Bytes),
      verifyChunks (signPackets cs sk hH hn j).dropLast hH hn (sPubOf sk) j
        acc = .ok (acc.flatten ++ cs.flatten) := by
  intro cs
  induction cs with
  | nil =>
    intro _ j acc
    simp [signPackets, verifyChunks]
  | cons c rest ih =>
    intro hcs j acc
    have hne : c ≠ [] := hcs c (List.mem_cons_self c rest)
    have hflag : (if c = [] then (1 : Nat) else 0) = 0 := if_neg hne
    have hflag2 : (if false = true then (1 : Nat) else 0) = 0 := rfl
    simp only [signPackets]
    rw [List.dropLast_cons_of_ne_nil (signPackets_ne_nil rest sk hH hn (j + 1))]
    simp only [verifyChunks, computeSignature, hflag, hflag2]
    rw [if_pos (signDetachedVerify_signDetached _ sk), if_neg hne]
    rw [ih (fun x hx => hcs x (List.mem_cons_of_mem c hx)) (j + 1) (acc ++ [c])]
    simp

/-! ## Claim C5 -/

/-- Claim C5: verifying the output of `sign(M, K)` against `K`'s public
key succeeds and returns exactly `M` with `verified = true`. -/
theorem verify_sign_roundtrip (M : Bytes) (K : KeyPair) (hK : K.signValid)
    (hn : Bytes) :
    verify (sign M K hn) K.publicKey = .ok ⟨M, K.publicKey, true⟩ := by
  show verify (sigHeader K.publicKey hn :: signPackets (chunksOf CHUNK_SIZE M)
    K.secretKey (headerHash (encodeVal (sigHeader K.publicKey hn))) hn 0)
    K.publicKey = _
  rw [hK]
  have hvs := verifyChunks_signPackets K.secretKey
    (headerHash (encodeVal (sigHeader (sPubOf K.secretKey) hn))) hn
    (chunksOf CHUNK_SIZE M) (chunksOf_mem_ne_nil chunk_size_pos M) 0 []
  simp only [sigHeader] at hvs
  simp [verify, parseSigHeader, sigHeader, hvs, chunksOf_flatten chunk_size_pos]

/-- Witness for C5 at a concrete instance. -/
theorem verify_sign_roundtrip_witness :
    (KeyPair.mk (sPubOf [5]) [5]).signValid ∧
    verify (sign [1, 2, 3] (KeyPair.mk (sPubOf [5]) [5]) (List.replicate 32 7))
        (sPubOf [5]) =
      .ok ⟨[1, 2, 3], sPubOf [5], true⟩ :=
  ⟨rfl, verify_sign_roundtrip [1, 2, 3] (KeyPair.mk (sPubOf [5]) [5]) rfl
    (List.replicate 32 7)⟩

/-! ## Claim C2 -/

/-- Claim C2 (against the code): removing the trailing terminator packet
from a valid encrypted or signed stream does NOT make the decoder fail:
both `decrypt` and `verify` still return the accumulated
plaintext/message as success, because neither checks that the terminator
was observed before end-of-stream. -/
theorem truncation_accepted (P : Bytes) (S : Option KeyPair)
    (R : List Bytes) (k e : Bytes) (ri : KeyPair) (M : Bytes) (K : KeyPair)
    (hn : Bytes) (hri : ri.valid) (hmem : ri.publicKey ∈ R)
    (hS : ∀ kp, S = some kp → kp.valid) (hK : K.signValid) :
    (encrypt P S R k e).bind (fun s => decrypt s.dropLast ri) =
      .ok ⟨P, S.map KeyPair.publicKey⟩ ∧
    verify (sign M K hn).dropLast K.publicKey = .ok ⟨M, K.publicKey, true⟩ := by
  constructor
  · have hR : R ≠ [] := by
      rintro rfl
      simp at hmem
    unfold encrypt
    rw [if_neg hR]
    show decrypt (encHeader (pubOf e)
        (secretbox (senderBytesOf S) (makeNonce NONCE_SENDER 0) k)
        (buildPairs R k e 0) ::
        payloadPackets (chunksOf CHUNK_SIZE P) k 0).dropLast ri = _
    rw [List.dropLast_cons_of_ne_nil (payloadPackets_ne_nil _ k 0)]
    unfold encHeader
    simp only [decrypt, parseEncHeader]
    rw [if_neg (by simp), if_neg (by simp), if_neg (by simp)]
    simp only [findPayloadKey_buildPairs R k e ri hri hmem,
      secretboxOpen_secretbox,
      readChunks_payloadPackets_dropLast k (chunksOf CHUNK_SIZE P)
        (chunksOf_mem_ne_nil chunk_size_pos P)]
    rcases S with _ | kp
    · simp [senderBytesOf, chunksOf_flatten chunk_size_pos]
    · have hkp : kp.publicKey = pubOf kp.secretKey := hS kp rfl
      simp [senderBytesOf, hkp, pubOf, chunksOf_flatten chunk_size_pos]
  · show verify (sigHeader K.publicKey hn :: signPackets (chunksOf CHUNK_SIZE M)
      K.secretKey (headerHash (encodeVal (sigHeader K.publicKey hn))) hn
      0).dropLast K.publicKey = _
    rw [List.dropLast_cons_of_ne_nil (signPackets_ne_nil _ K.secretKey _ hn 0)]
    rw [hK]
    have hvs := verifyChunks_signPackets_dropLast K.secretKey
      (headerHash (encodeVal (sigHeader (sPubOf K.secretKey) hn))) hn
      (chunksOf CHUNK_SIZE M) (chunksOf_mem_ne_nil chunk_size_pos M) 0 []
    simp only [sigHeader] at hvs
    simp [verify, parseSigHeader, sigHeader, hvs, chunksOf_flatten chunk_size_pos]

/-- Witness for C2 at a concrete instance. -/
theorem truncation_accepted_witness :
    (KeyPair.mk (pubOf [4]) [4]).valid ∧
    (KeyPair.mk (pubOf [4]) [4]).publicKey ∈ [pubOf [4]] ∧
    (∀ kp, (none : Option KeyPair) = some kp → kp.valid) ∧
    (KeyPair.mk (sPubOf [5]) [5]).signValid ∧
    ((encrypt [8, 9] none [pubOf [4]] [1] [2]).bind
        (fun s => decrypt s.dropLast (KeyPair.mk (pubOf [4]) [4])) =
      .ok ⟨[8, 9], none⟩ ∧
    verify (sign [6] (KeyPair.mk (sPubOf [5]) [5])
        (List.replicate 32 7)).dropLast (sPubOf [5]) =
      .ok ⟨[6], sPubOf [5], true⟩) :=
  ⟨rfl, by simp, fun kp h => Option.noConfusion h, rfl,
    truncation_accepted [8, 9] none [pubOf [4]] [1] [2]
      (KeyPair.mk (pubOf [4]) [4]) [6] (KeyPair.mk (sPubOf [5]) [5])
      (List.replicate 32 7) rfl (by simp)
      (fun kp h => Option.noConfusion h) rfl⟩

/-! ## Claim C8 -/

/-- Claim C8: verifying a signed message whose header declares signer
`pk` against any expected key `pe ≠ pk` fails with the wrong-signer
error, whatever the payload packets are — so before any chunk is
authenticated — and returns no message bytes. -/
theorem verify_wrong_signer (pk hn : Bytes) (packets : List MPVal)
    (pe : Bytes) (hne : pe ≠ pk) :
    verify (sigHeader pk hn :: packets) pe = .error .wrongSigner := by
  simp [verify, parseSigHeader, sigHeader, Ne.symm hne]

/-- Witness for C8 at a concrete instance. -/
theorem verify_wrong_signer_witness :
    ([9, 9] : Bytes) ≠ [8, 8] ∧
    verify (sigHeader [8, 8] [7] :: [.arr [.bin [1], .bin [2]]]) [9, 9] =
      .error .wrongSigner :=
  ⟨by simp, verify_wrong_signer [8, 8] [7] [.arr [.bin [1], .bin [2]]] [9, 9]
    (by simp)⟩

/-! ## Claim C4 -/

theorem signPackets_getElem (sk hH hn : Bytes) :
    ∀ (cs : List Bytes) (j i : Nat) (c : Bytes), cs[i]? = some c →
      (signPackets cs sk hH hn j)[i]? =
        some (.arr [.bin (signDetached (hH ++ hn ++ be64 (j + i) ++ [0] ++ c)
          sk), .bin c]) := by
  intro cs
  induction cs with
  | nil => intro j i c hc; simp at hc
  | cons c0 rest ih =>
    intro j i c hc
    rcases i with _ | i
    · simp only [List.getElem?_cons_zero, Option.some_inj] at hc
      subst hc
      simp [signPackets, computeSignature]
    · simp only [List.getElem?_cons_succ] at hc
      have h2 := ih (j + 1) i c hc
      have harith : j + 1 + i = j + (i + 1) := by omega
      rw [harith] at h2
      simp only [signPackets, List.getElem?_cons_succ]
      exact h2

theorem signPackets_getLast (sk hH hn : Bytes) :
    ∀ (cs : List Bytes) (j : Nat),
      (signPackets cs sk hH hn j).getLast? =
        some (.arr [.bin (signDetached (hH ++ hn ++ be64 (j + cs.length) ++ [1])
          sk), .bin []]) := by
  intro cs
  induction cs with
  | nil =>
    intro j
    simp [signPackets, computeSignature]
  | cons c rest ih =>
    intro j
    simp only [signPackets]
    rw [getLast?_cons_of_ne_nil _ (signPackets_ne_nil rest sk hH hn (j + 1))]
    rw [ih (j + 1)]
    have harith : j + 1 + rest.length = j + (c :: rest).length := by
      simp only [List.length_cons]
      omega
    rw [harith]

/-- Claim C4 amended: the header hash used by the signing engine (and by
the verification state machine, which computes `headerHash` over the same
re-encoded header bytes) is the first 32 bytes of the SHA-512 digest of
the canonical header bytes — `nacl.hash` is SHA-512, not BLAKE2b-512.
Every emitted signature signs an input beginning with that hash. -/
theorem sign_uses_sha512_header_hash (K : KeyPair) (hn M : Bytes) :
    (∀ (i : Nat) (c : Bytes), (chunksOf CHUNK_SIZE M)[i]? = some c →
      (sign M K hn)[i + 1]? = some (.arr [
        .bin (signDetached
          ((sha512 (encodeVal (sigHeader K.publicKey hn))).take 32 ++ hn ++
            be64 i ++ [0] ++ c) K.secretKey),
        .bin c])) ∧
    (sign M K hn).getLast? = some (.arr [
      .bin (signDetached
        ((sha512 (encodeVal (sigHeader K.publicKey hn))).take 32 ++ hn ++
          be64 (chunksOf CHUNK_SIZE M).length ++ [1]) K.secretKey),
      .bin []]) ∧
    ∀ bs : Bytes, headerHash bs = (sha512 bs).take 32 := by
  refine ⟨?_, ?_, fun bs => rfl⟩
  · intro i c hc
    show (sigHeader K.publicKey hn :: signPackets (chunksOf CHUNK_SIZE M)
      K.secretKey (headerHash (encodeVal (sigHeader K.publicKey hn))) hn
      0)[i + 1]? = _
    simp only [List.getElem?_cons_succ]
    have h2 := signPackets_getElem K.secretKey
      (headerHash (encodeVal (sigHeader K.publicKey hn))) hn
      (chunksOf CHUNK_SIZE M) 0 i c hc
    simpa using h2
  · show (sigHeader K.publicKey hn :: signPackets (chunksOf CHUNK_SIZE M)
      K.secretKey (headerHash (encodeVal (sigHeader K.publicKey hn))) hn
      0).getLast? = _
    rw [getLast?_cons_of_ne_nil _
      (signPackets_ne_nil (chunksOf CHUNK_SIZE M) K.secretKey _ hn 0)]
    have h2 := signPackets_getLast K.secretKey
      (headerHash (encodeVal (sigHeader K.publicKey hn))) hn
      (chunksOf CHUNK_SIZE M) 0
    simpa using h2

/-- Witness for the amended C4 at a concrete instance. -/
theorem sign_uses_sha512_header_hash_witness :
    (chunksOf CHUNK_SIZE [5])[0]? = some [5] ∧
    (sign [5] (KeyPair.mk (sPubOf [3]) [3]) [7])[0 + 1]? = some (.arr [
      .bin (signDetached
        ((sha512 (encodeVal (sigHeader (sPubOf [3]) [7]))).take 32 ++ [7] ++
          be64 0 ++ [0] ++ [5]) [3]),
      .bin [5]]) :=
  ⟨by decide, (sign_uses_sha512_header_hash (KeyPair.mk (sPubOf [3]) [3])
    [7] [5]).1 0 [5] (by decide)⟩

set_option maxRecDepth 40000 in
/-- Claim C4 counterexample: for a concrete signing header (all-zero
signer key and nonce), the header hash the signing engine uses — and
feeds into the terminator signature it emits — differs from the first 32
bytes of BLAKE2b-512 over the same canonical header bytes. -/
theorem header_hash_is_not_blake2b :
    headerHash (encodeVal (sigHeader (List.replicate 32 0)
        (List.replicate 32 0))) ≠
      specHeaderHash (encodeVal (sigHeader (List.replicate 32 0)
        (List.replicate 32 0))) ∧
    sign [] (KeyPair.mk (List.replicate 32 0) (List.replicate 32 0))
        (List.replicate 32 0) =
      [sigHeader (List.replicate 32 0) (List.replicate 32 0),
        .arr [.bin (signDetached
          (headerHash (encodeVal (sigHeader (List.replicate 32 0)
            (List.replicate 32 0))) ++ List.replicate 32 0 ++ be64 0 ++ [1])
          (List.replicate 32 0)),
        .bin []]] := by
  constructor
  · decide
  · rfl

/-! ## Claim C7: base64 -/

theorem b64Char_bounds (v : Nat) : 43 ≤ b64Char v ∧ b64Char v ≤ 122 := by
  unfold b64Char
  split_ifs <;> omega

theorem b64Char_ne_lf (v : Nat) : b64Char v ≠ 10 := by
  have := b64Char_bounds v
  omega

theorem b64Char_ne_pad (v : Nat) : b64Char v ≠ 61 := by
  unfold b64Char
  split_ifs <;> omega

theorem b64Val_b64Char : ∀ v < 64, b64Val (b64Char v) = some v := by decide

theorem b64Enc_mem_ne_lf : ∀ (B : Bytes), ∀ x ∈ b64Enc B, x ≠ 10 := by
  intro B
  induction B using b64Enc.induct with
  | case1 => simp [b64Enc]
  | case2 a => simp [b64Enc, b64Char_ne_lf]
  | case3 a b => simp [b64Enc, b64Char_ne_lf]
  | case4 a b c rest ih =>
    simp only [b64Enc, List.mem_cons]
    rintro x (rfl | rfl | rfl | rfl | hx)
    · exact b64Char_ne_lf _
    · exact b64Char_ne_lf _
    · exact b64Char_ne_lf _
    · exact b64Char_ne_lf _
    · exact ih x hx

theorem b64Enc_ne_nil : ∀ {B : Bytes}, B ≠ [] → b64Enc B ≠ [] := by
  intro B hB
  rcases B with _ | ⟨a, _ | ⟨b, _ | ⟨c, rest⟩⟩⟩
  · exact absurd rfl hB
  · simp [b64Enc]
  · simp [b64Enc]
  · simp [b64Enc]

theorem b64Dec_b64Enc : ∀ B : Bytes, (∀ b ∈ B, b < 256) →
    b64Dec (b64Enc B) = some B := by
  intro B
  induction B using b64Enc.induct with
  | case1 => intro _; rfl
  | case2 a =>
    intro hb
    have ha : a < 256 := hb a (by simp)
    have h0 := b64Val_b64Char (a / 4) (by omega)
    have h1 := b64Val_b64Char (a % 4 * 16) (by omega)
    simp only [b64Enc, b64Dec, h0, h1]
    rw [if_pos (by simp)]
    have harith : a / 4 * 4 + a % 4 * 16 / 16 = a := by omega
    rw [harith]
  | case3 a b =>
    intro hb
    have ha : a < 256 := hb a (by simp)
    have hb2 : b < 256 := hb b (by simp)
    have h0 := b64Val_b64Char (a / 4) (by omega)
    have h1 := b64Val_b64Char (a % 4 * 16 + b / 16) (by omega)
    have h2 := b64Val_b64Char (b % 16 * 4) (by omega)
    simp only [b64Enc, b64Dec, h0, h1]
    rw [if_neg (fun h => b64Char_ne_pad _ h.1)]
    simp only [h2]
    rw [if_pos (by simp)]
    have ha1 : (a / 4) * 4 + (a % 4 * 16 + b / 16) / 16 = a := by omega
    have hb1 : (a % 4 * 16 + b / 16) % 16 * 16 + b % 16 * 4 / 4 = b := by omega
    rw [ha1, hb1]
  | case4 a b c rest ih =>
    intro hb
    have ha : a < 256 := hb a (by simp)
    have hb2 : b < 256 := hb b (by simp)
    have hc : c < 256 := hb c (by simp)
    have h0 := b64Val_b64Char (a / 4) (by omega)
    have h1 := b64Val_b64Char (a % 4 * 16 + b / 16) (by omega)
    have h2 := b64Val_b64Char (b % 16 * 4 + c / 64) (by omega)
    have h3 := b64Val_b64Char (c % 64) (by omega)
    have hrest := ih (fun x hx => hb x (by simp [hx]))
    simp only [b64Enc, b64Dec, h0, h1, h2, h3]
    rw [if_neg (fun h => b64Char_ne_pad _ h.1),
      if_neg (fun h => b64Char_ne_pad _ h.1)]
    rw [hrest]
    have ha1 : (a / 4) * 4 + (a % 4 * 16 + b / 16) / 16 = a := by omega
    have hb1 : (a % 4 * 16 + b / 16) % 16 * 16 + (b % 16 * 4 + c / 64) / 4 = b := by
      omega
    have hc1 : (b % 16 * 4 + c / 64) % 4 * 64 + c % 64 = c := by omega
    simp [ha1, hb1, hc1]

/-! ## Claim C7: armor structure -/

theorem chunksOf_mem_mem {n : Nat} (hn : 0 < n) (l : Bytes) :
    ∀ c ∈ chunksOf n l, ∀ x ∈ c, x ∈ l := by
  rw [chunksOf_eq hn l]
  by_cases h : l = []
  · simp [h]
  · rw [if_neg h]
    intro c hc x hx
    rcases List.mem_cons.mp hc with rfl | hmem
    · exact List.mem_of_mem_take hx
    · exact List.mem_of_mem_drop (chunksOf_mem_mem hn (l.drop n) c hmem x hx)
termination_by l.length
decreasing_by
  simp only [List.length_drop]
  have : 0 < l.length := List.length_pos.mpr h
  omega

theorem chunksOf_ne_nil {n : Nat} (hn : 0 < n) {l : Bytes} (hl : l ≠ []) :
    chunksOf n l ≠ [] := by
  rw [chunksOf_eq hn l]
  simp [hl]

theorem intercalate_cons_of_ne_nil {s : Bytes} (x : Bytes) {xs : List Bytes}
    (h : xs ≠ []) :
    List.intercalate s (x :: xs) = x ++ s ++ List.intercalate s xs := by
  rcases xs with _ | ⟨y, ys⟩
  · exact absurd rfl h
  · simp [List.intercalate, List.intersperse_cons_cons]

theorem intercalate_append_last {s : Bytes} :
    ∀ (xs : List Bytes) (x : Bytes), xs ≠ [] →
      List.intercalate s (xs ++ [x]) = List.intercalate s xs ++ s ++ x := by
  intro xs
  induction xs with
  | nil => intro x h; exact absurd rfl h
  | cons y ys ih =>
    intro x _
    rcases ys with _ | ⟨z, zs⟩
    · simp [List.intercalate, List.intersperse_cons_cons]
    · rw [List.cons_append,
        intercalate_cons_of_ne_nil y (by simp : z :: zs ++ [x] ≠ []),
        ih x (by simp), intercalate_cons_of_ne_nil y
          (by simp : (z :: zs : List Bytes) ≠ [])]
      simp [List.append_assoc]

theorem trimBytes_eq_self {l : Bytes} {a b : Nat}
    (h1 : l.head? = some a) (ha : isWsChar a = false)
    (h2 : l.getLast? = some b) (hb : isWsChar b = false) :
    trimBytes l = l := by
  unfold trimBytes
  rcases l with _ | ⟨x, t⟩
  · simp at h1
  · have hxa : x = a := by simpa using h1
    rw [List.dropWhile_cons, if_neg (by simp [hxa, ha])]
    rcases hr : (x :: t).reverse with _ | ⟨y, t2⟩
    · exact absurd hr (by simp)
    · have hyb : y = b := by
        have hh := List.head?_reverse (x :: t)
        rw [hr, h2] at hh
        simpa using hh
      rw [List.dropWhile_cons, if_neg (by simp [hyb, hb]), ← hr,
        List.reverse_reverse]

theorem armor_head (B : Bytes) (T : MessageType) :
    (armor B T).head? = some 66 := by
  unfold armor
  rw [List.append_assoc, List.singleton_append,
    intercalate_cons_of_ne_nil _ (by simp)]
  cases T <;> rfl

theorem armor_getLast (B : Bytes) (T : MessageType) :
    (armor B T).getLast? = some 46 := by
  unfold armor
  rw [intercalate_append_last _ _ (by simp)]
  cases T <;> rw [List.getLast?_append_of_ne_nil _ (by decide)] <;> rfl

theorem armor_splitOn (B : Bytes) (T : MessageType) :
    (armor B T).splitOn 10 =
      armorHeaderLine T :: (chunksOf 43 (b64Enc B) ++ [armorFooterLine T]) := by
  unfold armor
  rw [List.append_assoc, List.singleton_append]
  apply List.splitOn_intercalate
  · intro l hl
    rcases List.mem_cons.mp hl with rfl | hl2
    · cases T <;> decide
    · rcases List.mem_append.mp hl2 with hl3 | hl3
      · intro hmem
        exact b64Enc_mem_ne_lf B 10
          (chunksOf_mem_mem (by decide) (b64Enc B) l hl3 10 hmem) rfl
      · simp only [List.mem_singleton] at hl3
        subst hl3
        cases T <;> decide
  · simp

/-- Claim C7 amended: for every non-empty byte sequence `B` (of genuine
bytes) and both message types, `dearmor (armor B T) = B`; the armored
string's first line is exactly the `BEGIN SALTPACK <TYPE> MESSAGE.` line,
its last line is the `END SALTPACK <TYPE> MESSAGE.` line, and the body
between them is the standard base64 encoding of `B` in 43-character
segments separated by LF.  (For `B = []` the body is empty and `dearmor`
rejects the two-line string — see the counterexample.) -/
theorem dearmor_armor (B : Bytes) (T : MessageType) (hB : B ≠ [])
    (hlt : ∀ x ∈ B, x < 256) :
    dearmor (armor B T) = .ok B ∧
    (armor B T).splitOn 10 =
      armorHeaderLine T :: (chunksOf 43 (b64Enc B) ++ [armorFooterLine T]) := by
  have hsplit := armor_splitOn B T
  refine ⟨?_, hsplit⟩
  unfold dearmor
  have htrim : trimBytes (armor B T) = armor B T :=
    trimBytes_eq_self (armor_head B T) (by decide) (armor_getLast B T)
      (by decide)
  rw [htrim, hsplit]
  have hchunks : chunksOf 43 (b64Enc B) ≠ [] :=
    chunksOf_ne_nil (by decide) (b64Enc_ne_nil hB)
  have hlen : ¬((armorHeaderLine T ::
      (chunksOf 43 (b64Enc B) ++ [armorFooterLine T])).length < 3) := by
    have := List.length_pos.mpr hchunks
    simp only [List.length_cons, List.length_append, List.length_singleton]
    omega
  rw [if_neg hlen]
  have hfoot : (armorHeaderLine T ::
      (chunksOf 43 (b64Enc B) ++ [armorFooterLine T])).getLastD [] =
      armorFooterLine T := by
    rw [List.getLastD_eq_getLast?, getLast?_cons_of_ne_nil _ (by simp),
      List.getLast?_concat]
    rfl
  rw [hfoot]
  have hpre : ((strBytes "BEGIN SALTPACK").isPrefixOf
        ((armorHeaderLine T :: (chunksOf 43 (b64Enc B) ++
          [armorFooterLine T])).headD []) ∧
      (strBytes "END SALTPACK").isPrefixOf (armorFooterLine T)) := by
    simp only [List.headD_cons]
    cases T <;> exact ⟨by decide, by decide⟩
  rw [if_neg (not_not_intro hpre)]
  have hdata : ((armorHeaderLine T :: (chunksOf 43 (b64Enc B) ++
      [armorFooterLine T])).drop 1).dropLast = chunksOf 43 (b64Enc B) := by
    simp only [List.drop_one, List.tail_cons]
    exact List.dropLast_concat
  rw [hdata, chunksOf_flatten (by decide) (b64Enc B), b64Dec_b64Enc B hlt]

/-- Claim C7 counterexample: for the empty byte sequence the armored
string has no body lines and `dearmor` rejects it, so
`dearmor (armor [] T)` is an error, not `[]`. -/
theorem dearmor_armor_empty :
    dearmor (armor [] .encrypted) = .error .tooFewLines ∧
    dearmor (armor [] .signed) = .error .tooFewLines := by decide

/-- Witness for the amended C7 at a concrete instance. -/
theorem dearmor_armor_witness :
    ([1, 2, 3, 4, 5] : Bytes) ≠ [] ∧
    (∀ x ∈ ([1, 2, 3, 4, 5] : Bytes), x < 256) ∧
    (dearmor (armor [1, 2, 3, 4, 5] .encrypted) = .ok [1, 2, 3, 4, 5] ∧
    (armor [1, 2, 3, 4, 5] .encrypted).splitOn 10 =
      armorHeaderLine .encrypted :: (chunksOf 43 (b64Enc [1, 2, 3, 4, 5]) ++
        [armorFooterLine .encrypted])) :=
  ⟨by simp, by decide,
    dearmor_armor [1, 2, 3, 4, 5] .encrypted (by simp) (by decide)⟩

end Saltpack
